import Mathlib

/-!
Verification model of the faim-dashboard core logic.

The definitions below are a shallow embedding of the two core modules:

* `src/data.py` — `get_categories_table`, which filters a raw catalog of
  `(Group Code, Group Name)` records to well-formed hierarchical codes,
  deduplicates exact pairs, sorts by the integer-segment key and appends the
  default editable fields;
* `src/pages/data_entry.py` — `validate_table`, `clear_table`,
  `restore_table_from_session` and `get_exposure_input`.

The catalog (the parquet file contents) is modelled as an explicit list of
`(group code, group name)` string pairs; the dataframe pipeline becomes the
corresponding list pipeline.  Numbers are modelled as `ℚ`; dynamic Python
values flowing through the session-restore path are modelled by the `JVal`
type, with Python exceptions made explicit via `Except PyErr`.
-/

/-- Decimal digit test for the filter regex's `\d` class.  The Rust
regex engine behind `str.contains` reads `\d` as any Unicode decimal
digit; the model keeps the ASCII digits `0`-`9`, the alphabet of the
catalog's group codes.  A non-ASCII decimal digit would pass the real
filter and then make the strict cast raise — the same matching-code
failure mode that the Int64 bound of `parseSeg` exhibits below. -/
def isDig (c : Char) : Bool := c.isDigit

/-- States of the automaton recognising the filter regex
`^\d+(\.\d+)*\.?$` from `get_categories_table`:
`start` before any character, `inDigits` inside a digit group,
`afterDot` immediately after a separating dot. -/
inductive HState where
  | start
  | inDigits
  | afterDot
deriving DecidableEq

/-- Run of the recogniser for `^\d+(\.\d+)*\.?$` over a character list.
Accepting states are `inDigits` (code ends in a digit) and `afterDot`
(code ends in a single trailing dot). -/
def hierRun : HState → List Char → Bool
  | .start, [] => false
  | .inDigits, [] => true
  | .afterDot, [] => true
  | .start, c :: l => isDig c && hierRun .inDigits l
  | .inDigits, c :: l =>
      if isDig c then hierRun .inDigits l
      else if c = '.' then hierRun .afterDot l
      else false
  | .afterDot, c :: l => isDig c && hierRun .inDigits l

/-- Whether a group code survives the filter
`pl.col('Group Code').str.contains(r'^\d+(\.\d+)*\.?$')`. -/
def matchesHierCode (s : String) : Bool :=
  hierRun .start s.data

/-- Model of `.str.strip_chars(".")` on the trailing side:
remove every trailing dot. -/
def dropTrailingDots (l : List Char) : List Char :=
  (l.reverse.dropWhile (fun c => c = '.')).reverse

/-- Model of `.str.strip_chars(".")`: strip dots from both ends. -/
def stripDots (l : List Char) : List Char :=
  dropTrailingDots (l.dropWhile (fun c => c = '.'))

/-- Model of `.str.split(".")`: split a character list on dots; the result
always has at least one (possibly empty) segment. -/
def splitDots : List Char → List (List Char)
  | [] => [[]]
  | c :: l =>
      if c = '.' then [] :: splitDots l
      else
        match splitDots l with
        | [] => [[c]]
        | seg :: segs => (c :: seg) :: segs

/-- Numeric value of a digit list (most significant digit first). -/
def digitsVal : List Char → Nat → Nat
  | [], acc => acc
  | c :: l, acc => digitsVal l (acc * 10 + (c.toNat - ('0').toNat))

/-- Model of the strict `cast(pl.Int64)` applied to one split segment:
it succeeds exactly on non-empty all-digit segments whose value fits in
a signed 64-bit integer (at most `2 ^ 63 - 1`), returning the parsed
non-negative integer; on any other segment — empty, non-digit, or
overflowing Int64 — the strict cast raises, modelled as `none`. -/
def parseSeg (seg : List Char) : Option Nat :=
  if seg ≠ [] ∧ seg.all isDig ∧ digitsVal seg 0 < 2 ^ 63 then some (digitsVal seg 0)
  else none

/-- Parse every segment of a split code. -/
def parseSegs : List (List Char) → Option (List Nat)
  | [] => some []
  | seg :: segs =>
      match parseSeg seg, parseSegs segs with
      | some n, some ns => some (n :: ns)
      | _, _ => none

/-- Sort key of a group code: strip dots, split on dots, parse each
segment (`none` models the pipeline raising on an unparsable segment). -/
def sortKey (s : String) : Option (List Nat) :=
  parseSegs (splitDots (stripDots s.data))

/-- Comparison used by the dataframe sort on the list-typed key column:
lexicographic on integer segments, a strict prefix sorting first. -/
def keyLE : List Nat → List Nat → Bool
  | [], _ => true
  | _ :: _, [] => false
  | a :: as, b :: bs => a < b || (a = b && keyLE as bs)

/-- Strict lexicographic order on integer-segment sequences, written from
the specification text: compare resulting integer sequences
lexicographically, a shorter sequence that is a prefix of a longer one
sorting first.  Used to compare the builder's order against the spec. -/
def specLexLt : List Nat → List Nat → Bool
  | [], [] => false
  | [], _ :: _ => true
  | _ :: _, [] => false
  | a :: as, b :: bs => a < b || (a = b && specLexLt as bs)

/-- Canonical editable-table row: the four columns of the data-entry
table (`Group Code`, `Group Name`, `Use level (mg/kg)`, `Consumers of`). -/
structure Row where
  group_code : String
  group_name : String
  use_level : Option ℚ
  consumers_of : Bool
deriving DecidableEq

/-- Attach the sort key to every surviving pair; `none` models the strict
cast raising on some segment. -/
def keyRows : List (String × String) → Option (List ((String × String) × List Nat))
  | [] => some []
  | p :: ps =>
      match sortKey p.1, keyRows ps with
      | some k, some rest => some ((p, k) :: rest)
      | _, _ => none

/-- Ordering relation on keyed pairs used by the sort step. -/
def kle (a b : (String × String) × List Nat) : Prop :=
  keyLE a.2 b.2 = true

instance : DecidableRel kle := fun a b => decEq (keyLE a.2 b.2) true

/-- Model of `get_categories_table`: select the `(Group Code, Group Name)`
pairs, deduplicate exact pairs, keep the codes matching the hierarchical
pattern, sort by the integer-segment key and append the defaulted editable
columns.  `none` models the pipeline raising while casting a segment. -/
def buildCategoryTable? (catalog : List (String × String)) : Option (List Row) :=
  match keyRows ((catalog.dedup).filter (fun p => matchesHierCode p.1)) with
  | none => none
  | some keyed =>
      some ((List.insertionSort kle keyed).map
        (fun pk => ⟨pk.1.1, pk.1.2, none, false⟩))

/-- Table-shaped view of the builder: the table when the pipeline
succeeds, and the empty table when the pipeline raises
(`buildCategoryTable? catalog = none`, which a matching code with an
Int64-overflowing segment causes). -/
def buildCategoryTable (catalog : List (String × String)) : List Row :=
  (buildCategoryTable? catalog).getD []

/-- Eligibility test from `validate_table` and `get_exposure_input`:
`row.get("Use level (mg/kg)") is not None and row.get(...) > 0`. -/
def rowEligible (r : Row) : Bool :=
  match r.use_level with
  | none => false
  | some q => decide (0 < q)

/-- Test from the correction loop of `validate_table`:
`row.get(...) is None or row.get(...) <= 0`. -/
def rowLow (r : Row) : Bool :=
  match r.use_level with
  | none => true
  | some q => decide (q ≤ 0)

/-- Model of `validate_table`: the first component is the returned
`disabled` flag for the calculate button (`not enable_calculate`), the
second the corrected table with `Consumers of` cleared on every row whose
use level is missing or `<= 0`. -/
def validate_table (t : List Row) : Bool × List Row :=
  (!(t.any rowEligible),
   t.map (fun r => if rowLow r then { r with consumers_of := false } else r))

/-- Compact persisted record produced by `get_exposure_input`. -/
structure SessionEntry where
  group_code : String
  use_level : Option ℚ
  consumers_of : Bool
deriving DecidableEq

/-- Model of `get_exposure_input`: keep only rows whose use level is
non-null and `> 0`, projected to the compact record. -/
def get_exposure_input (t : List Row) : List SessionEntry :=
  (t.filter rowEligible).map (fun r => ⟨r.group_code, r.use_level, r.consumers_of⟩)

/-- Dynamic (Python/JSON) values flowing through the session-restore
path: the session payload is untyped, so restored cell values may be any
of these shapes. -/
inductive JVal where
  | null
  | bool (b : Bool)
  | num (q : ℚ)
  | str (s : String)
  | list (items : List JVal)
  | obj (fields : List (String × JVal))

/-- Python exceptions that can arise inside `restore_table_from_session`;
all three are caught by its `except` clause. -/
inductive PyErr where
  | keyError
  | typeError
  | attributeError
deriving DecidableEq

/-- Editable-table row as it exists on the session-restore path, where
the two editable cells hold dynamic values taken from the payload. -/
structure DynRow where
  group_code : String
  group_name : String
  use_level : JVal
  consumers_of : JVal

/-- Dynamic form of a typed use-level cell (`None` or a number). -/
def levelJVal : Option ℚ → JVal
  | none => .null
  | some q => .num q

/-- View of a typed row as a dynamic row. -/
def Row.toDyn (r : Row) : DynRow :=
  ⟨r.group_code, r.group_name, levelJVal r.use_level, .bool r.consumers_of⟩

/-- JSON form of a compact record (the export payload and the session
store both carry exactly these three keys). -/
def SessionEntry.toJVal (e : SessionEntry) : JVal :=
  .obj [("group_code", .str e.group_code),
        ("use_level", levelJVal e.use_level),
        ("consumers_of", .bool e.consumers_of)]

/-- Compact a table into the session payload handed to the session store
(`calculate_exposure`) and to the export file. -/
def exposureInputJVal (t : List Row) : JVal :=
  .list ((get_exposure_input t).map SessionEntry.toJVal)

/-- Python iteration `for item in session_data`: lists yield their items,
strings their characters, dicts their keys; other values raise
`TypeError`. -/
def pyIter : JVal → Except PyErr (List JVal)
  | .list l => .ok l
  | .str s => .ok (s.data.map (fun c => .str (String.mk [c])))
  | .obj fs => .ok (fs.map (fun f => .str f.1))
  | _ => .error .typeError

/-- Python subscript `item[key]` for a string key: dict lookup
(`KeyError` when absent), `TypeError` on any non-dict value. -/
def pyGetItem : JVal → String → Except PyErr JVal
  | .obj fs, k =>
      match fs.lookup k with
      | some v => .ok v
      | none => .error .keyError
  | _, _ => .error .typeError

/-- Whether a value may be used as a dict key (lists and dicts are
unhashable in Python and raise `TypeError`). -/
def JVal.hashable : JVal → Bool
  | .list _ => false
  | .obj _ => false
  | _ => true

/-- Python `==` on hashable atoms, as used for dict-key identification;
booleans compare equal to their numeric value. -/
def pyEqAtom : JVal → JVal → Bool
  | .null, .null => true
  | .bool a, .bool b => a = b
  | .num a, .num b => a = b
  | .bool a, .num b => (if a then (1 : ℚ) else 0) = b
  | .num a, .bool b => a = (if b then (1 : ℚ) else 0)
  | .str a, .str b => a = b
  | _, _ => false

/-- Model of `{item['group_code']: item for item in session_data}` as an
insertion-ordered association list; every evaluation step that raises in
Python is surfaced as an error. -/
def buildSessionMap : List JVal → Except PyErr (List (JVal × JVal))
  | [] => .ok []
  | item :: rest => do
      let k ← pyGetItem item "group_code"
      if k.hashable then do
        let m ← buildSessionMap rest
        .ok ((k, item) :: m)
      else .error .typeError

/-- Dict lookup by a string key over the insertion-ordered association
list; a later insertion with the same key overwrites an earlier one, so
the scan prefers the rightmost match. -/
def mapLookupStr (m : List (JVal × JVal)) (c : String) : Option JVal :=
  match m with
  | [] => none
  | (k, v) :: rest =>
      match mapLookupStr rest c with
      | some r => some r
      | none => if pyEqAtom k (.str c) then some v else none

/-- Python `item.get(key)` / `item.get(key, default)`: defined on dicts,
`AttributeError` on any other value. -/
def pyDictGet : JVal → String → JVal → Except PyErr JVal
  | .obj fs, k, d => .ok ((fs.lookup k).getD d)
  | _, _, _ => .error .attributeError

/-- Body of the restore loop for one base row: when the row's group code
is a key of the session map, overwrite the two editable cells from the
session item, each field falling back to its default when the key is
absent. -/
def mergeRow (m : List (JVal × JVal)) (r : DynRow) : Except PyErr DynRow :=
  match mapLookupStr m r.group_code with
  | none => .ok r
  | some item => do
      let u ← pyDictGet item "use_level" .null
      let c ← pyDictGet item "consumers_of" (.bool false)
      .ok { r with use_level := u, consumers_of := c }

/-- Restore loop over all base rows. -/
def mergeRows (m : List (JVal × JVal)) : List DynRow → Except PyErr (List DynRow)
  | [] => .ok []
  | r :: rs => do
      let r' ← mergeRow m r
      let rs' ← mergeRows m rs
      .ok (r' :: rs')

/-- Python comparison `v > 0` on a dynamic cell value (booleans compare
as their numeric value; strings, lists and dicts raise `TypeError`). -/
def pyGtZero : JVal → Except PyErr Bool
  | .num q => .ok (decide (0 < q))
  | .bool b => .ok b
  | _ => .error .typeError

/-- Python comparison `v <= 0` on a dynamic cell value. -/
def pyLeZero : JVal → Except PyErr Bool
  | .num q => .ok (decide (q ≤ 0))
  | .bool b => .ok !b
  | _ => .error .typeError

/-- Python `v is None` test on a dynamic cell value. -/
def isNullJ : JVal → Bool
  | .null => true
  | _ => false

/-- Dynamic-value form of the `any(...)` check of `validate_table`,
short-circuiting like the Python generator: `use_level is not None and
use_level > 0` for some row. -/
def dynEnable : List DynRow → Except PyErr Bool
  | [] => .ok false
  | r :: rs =>
      if isNullJ r.use_level then dynEnable rs
      else do
        let b ← pyGtZero r.use_level
        if b then .ok true else dynEnable rs

/-- Dynamic-value form of the correction loop body of `validate_table`:
`use_level is None or use_level <= 0` forces `Consumers of` to `False`. -/
def dynFixRow (r : DynRow) : Except PyErr DynRow :=
  if isNullJ r.use_level then .ok { r with consumers_of := .bool false }
  else do
    let b ← pyLeZero r.use_level
    .ok (if b then { r with consumers_of := .bool false } else r)

/-- Correction loop over all rows. -/
def dynFixRows : List DynRow → Except PyErr (List DynRow)
  | [] => .ok []
  | r :: rs => do
      let r' ← dynFixRow r
      let rs' ← dynFixRows rs
      .ok (r' :: rs')

/-- Model of `validate_table` as invoked from the restore path, where the
restored cells are dynamic values and the comparisons may raise. -/
def validate_table_dyn (t : List DynRow) : Except PyErr (Bool × List DynRow) := do
  let enable ← dynEnable t
  let t' ← dynFixRows t
  .ok (!enable, t')

/-- Model of `clear_table`: the freshly rebuilt canonical table together
with the `disabled = True` flag. -/
def clear_table (catalog : List (String × String)) : Bool × List DynRow :=
  (true, (buildCategoryTable catalog).map Row.toDyn)

/-- Body of the `try` block of `restore_table_from_session`: rebuild the
canonical table, index the session payload by group code, overlay the
matching rows and re-validate. -/
def restoreCore (catalog : List (String × String)) (session : JVal) :
    Except PyErr (Bool × List DynRow) := do
  let base := (buildCategoryTable catalog).map Row.toDyn
  let items ← pyIter session
  let m ← buildSessionMap items
  let merged ← mergeRows m base
  validate_table_dyn merged

/-- Model of `restore_table_from_session`: the `except (KeyError,
TypeError, AttributeError)` clause converts every raised error into the
reset table from `clear_table`. -/
def restore_table_from_session (catalog : List (String × String)) (session : JVal) :
    Bool × List DynRow :=
  match restoreCore catalog session with
  | .ok res => res
  | .error _ => clear_table catalog

/-! ### Validation engine: basic lemmas -/

theorem rowLow_iff (r : Row) :
    rowLow r = true ↔ r.use_level = none ∨ ∃ q, r.use_level = some q ∧ q ≤ 0 := by
  unfold rowLow
  cases h : r.use_level with
  | none => simp
  | some q =>
      simp only [decide_eq_true_eq]
      constructor
      · intro hq
        exact Or.inr ⟨q, rfl, hq⟩
      · rintro (hc | ⟨q', hq', hle⟩)
        · exact absurd hc (by simp)
        · cases hq'
          exact hle

theorem rowEligible_iff (r : Row) :
    rowEligible r = true ↔ ∃ q, r.use_level = some q ∧ 0 < q := by
  unfold rowEligible
  cases h : r.use_level with
  | none => simp
  | some q =>
      simp only [decide_eq_true_eq]
      constructor
      · intro hq
        exact ⟨q, rfl, hq⟩
      · rintro ⟨q', hq', hlt⟩
        cases hq'
        exact hlt

/-- Per-row correction applied by `validate_table`. -/
def fixRow (r : Row) : Row :=
  if rowLow r then { r with consumers_of := false } else r

theorem validate_table_snd (t : List Row) : (validate_table t).2 = t.map fixRow := rfl

theorem fixRow_use_level (r : Row) : (fixRow r).use_level = r.use_level := by
  unfold fixRow
  split <;> rfl

theorem fixRow_group_code (r : Row) : (fixRow r).group_code = r.group_code := by
  unfold fixRow
  split <;> rfl

theorem fixRow_group_name (r : Row) : (fixRow r).group_name = r.group_name := by
  unfold fixRow
  split <;> rfl

theorem fixRow_consumers_of_low (r : Row) (h : rowLow r = true) :
    (fixRow r).consumers_of = false := by
  unfold fixRow
  rw [h]
  rfl

/-- C1 helper: every row of the corrected table whose use level is null or
non-positive carries `consumers_of = false`. -/
theorem validate_invariant_aux (t : List Row) (r : Row)
    (hr : r ∈ (validate_table t).2)
    (hlow : r.use_level = none ∨ ∃ q, r.use_level = some q ∧ q ≤ 0) :
    r.consumers_of = false := by
  rw [validate_table_snd] at hr
  rcases List.mem_map.1 hr with ⟨r0, _, hr0⟩
  subst hr0
  have hlow' : rowLow (fixRow r0) = true := (rowLow_iff _).2 hlow
  have hsame : rowLow (fixRow r0) = rowLow r0 := by
    unfold rowLow
    rw [fixRow_use_level]
  rw [hsame] at hlow'
  exact fixRow_consumers_of_low r0 hlow'

/-- C1: for every table passed through `validate_table`, no row of the
resulting table has `consumers_of = true` while its use level is null or
non-positive; the engine forces `consumers_of` to `false` on every such
row. -/
theorem claim_c1_validate_invariant (t : List Row) (r : Row)
    (hr : r ∈ (validate_table t).2)
    (hlow : r.use_level = none ∨ ∃ q, r.use_level = some q ∧ q ≤ 0) :
    r.consumers_of = false :=
  validate_invariant_aux t r hr hlow

/-- Witness for C1 at a concrete table: the null-level row comes out with
`consumers_of = false`. -/
theorem claim_c1_witness :
    (Row.mk "1" "A" none false).consumers_of = false :=
  claim_c1_validate_invariant [⟨"1", "A", none, true⟩] ⟨"1", "A", none, false⟩
    (by decide) (Or.inl rfl)

/-- C6: the calculate button is enabled (`disabled` flag false) iff some
row has a non-null use level strictly greater than `0`, and every compact
record produced by `get_exposure_input` has a strictly positive use
level — the boundary is `> 0`, not `>= 0`. -/
theorem claim_c6_boundary (t : List Row) :
    ((validate_table t).1 = false ↔ ∃ r ∈ t, ∃ q, r.use_level = some q ∧ 0 < q)
    ∧ ∀ e ∈ get_exposure_input t, ∃ q, e.use_level = some q ∧ 0 < q := by
  constructor
  · have hfst : (validate_table t).1 = !(t.any rowEligible) := rfl
    rw [hfst]
    constructor
    · intro h
      have hany : t.any rowEligible = true := by
        cases hb : t.any rowEligible
        · rw [hb] at h
          exact absurd h (by decide)
        · rfl
      rcases List.any_eq_true.1 hany with ⟨r, hr, he⟩
      exact ⟨r, hr, (rowEligible_iff r).1 he⟩
    · rintro ⟨r, hr, hq⟩
      have hany : t.any rowEligible = true :=
        List.any_eq_true.2 ⟨r, hr, (rowEligible_iff r).2 hq⟩
      rw [hany]
      rfl
  · intro e he
    unfold get_exposure_input at he
    rcases List.mem_map.1 he with ⟨r, hr, hre⟩
    rcases (rowEligible_iff r).1 (List.of_mem_filter hr) with ⟨q, hq, hpos⟩
    subst hre
    exact ⟨q, hq, hpos⟩

/-- Witness for C6 at a concrete table containing a `use_level = 0` row
and a `use_level = 5` row: the exported record has a positive level. -/
theorem claim_c6_witness :
    ∃ q, (SessionEntry.mk "2" (some 5) true).use_level = some q ∧ 0 < q :=
  (claim_c6_boundary [⟨"1", "A", some 0, false⟩, ⟨"2", "B", some 5, true⟩]).2
    ⟨"2", some 5, true⟩ (by decide)

/-- C8: `validate_table` preserves the length, the order and every field
other than `consumers_of` of its input (group codes, group names and use
levels are unchanged rowwise). -/
theorem claim_c8_frame (t : List Row) :
    (validate_table t).2.length = t.length ∧
    (validate_table t).2.map (fun r => r.group_code) = t.map (fun r => r.group_code) ∧
    (validate_table t).2.map (fun r => (r.group_code, r.group_name, r.use_level)) =
      t.map (fun r => (r.group_code, r.group_name, r.use_level)) := by
  rw [validate_table_snd]
  refine ⟨List.length_map _ _, ?_, ?_⟩
  · rw [List.map_map]
    apply List.map_congr_left
    intro r _
    simp [Function.comp, fixRow_group_code]
  · rw [List.map_map]
    apply List.map_congr_left
    intro r _
    simp [Function.comp, fixRow_group_code, fixRow_group_name, fixRow_use_level]

/-! ### Hierarchical codes: segment structure of accepted codes -/

theorem isDig_ne_dot {c : Char} (h : isDig c = true) : c ≠ '.' := by
  intro hc
  subst hc
  exact absurd h (by decide)

theorem dropTrailingDots_cons_of_ne {c : Char} (r : List Char) (hc : c ≠ '.') :
    dropTrailingDots (c :: r) = c :: dropTrailingDots r := by
  unfold dropTrailingDots
  rw [show (c :: r).reverse = r.reverse ++ [c] from by simp, List.dropWhile_append]
  by_cases h : (r.reverse.dropWhile (fun x => decide (x = '.'))).isEmpty
  · rw [if_pos h]
    rw [List.isEmpty_iff] at h
    rw [h]
    simp [hc]
  · rw [if_neg h]
    simp

theorem dropTrailingDots_cons_of_ne_nil (c : Char) (r : List Char)
    (h : dropTrailingDots r ≠ []) :
    dropTrailingDots (c :: r) = c :: dropTrailingDots r := by
  unfold dropTrailingDots at h ⊢
  rw [show (c :: r).reverse = r.reverse ++ [c] from by simp, List.dropWhile_append]
  have hne : (r.reverse.dropWhile (fun x => decide (x = '.'))).isEmpty = false := by
    cases hh : r.reverse.dropWhile (fun x => decide (x = '.')) with
    | nil => exact absurd (by rw [hh]; rfl) h
    | cons a l => rfl
  rw [hne]
  simp

theorem splitDots_ne_nil : ∀ l : List Char, splitDots l ≠ []
  | [] => by simp [splitDots]
  | c :: r => by
      unfold splitDots
      split
      · simp
      · split <;> simp

theorem splitDots_dot (l : List Char) : splitDots ('.' :: l) = [] :: splitDots l := by
  conv_lhs => rw [splitDots]
  rw [if_pos rfl]

theorem splitDots_cons_of_ne {c : Char} (l : List Char) (hc : c ≠ '.')
    {seg : List Char} {segs : List (List Char)} (h : splitDots l = seg :: segs) :
    splitDots (c :: l) = (c :: seg) :: segs := by
  unfold splitDots
  rw [if_neg hc, h]

theorem hierRun_segments : ∀ l : List Char, hierRun .inDigits l = true →
    ∃ seg segs, splitDots (dropTrailingDots l) = seg :: segs ∧
      seg.all isDig = true ∧ ∀ s ∈ segs, s ≠ [] ∧ s.all isDig = true := by
  intro l
  induction l with
  | nil =>
      intro _
      refine ⟨[], [], ?_, rfl, by simp⟩
      simp [dropTrailingDots, splitDots]
  | cons c r ih =>
      intro h
      by_cases hd : isDig c = true
      · have hr : hierRun .inDigits r = true := by
          rw [hierRun, hd] at h
          simpa using h
        rcases ih hr with ⟨seg, segs, hsplit, hseg, hsegs⟩
        rw [dropTrailingDots_cons_of_ne r (isDig_ne_dot hd)]
        refine ⟨c :: seg, segs, splitDots_cons_of_ne _ (isDig_ne_dot hd) hsplit, ?_, hsegs⟩
        simp [List.all_cons, hd, hseg]
      · have hcdot : c = '.' := by
          by_contra hne
          rw [hierRun] at h
          rw [if_neg hd, if_neg hne] at h
          exact absurd h (by decide)
        subst hcdot
        cases r with
        | nil =>
            refine ⟨[], [], ?_, rfl, by simp⟩
            have hdt : dropTrailingDots ['.'] = [] := by
              unfold dropTrailingDots
              simp
            rw [hdt]
            simp [splitDots]
        | cons c2 r2 =>
            have h2 : isDig c2 = true ∧ hierRun .inDigits r2 = true := by
              rw [hierRun, if_neg hd, if_pos rfl] at h
              rw [hierRun] at h
              exact ⟨(Bool.and_eq_true_iff.1 h).1, (Bool.and_eq_true_iff.1 h).2⟩
            have hr : hierRun .inDigits (c2 :: r2) = true := by
              rw [hierRun]
              rw [if_pos h2.1]
              exact h2.2
            rcases ih hr with ⟨seg, segs, hsplit, hseg, hsegs⟩
            have hdt2 : dropTrailingDots (c2 :: r2) = c2 :: dropTrailingDots r2 :=
              dropTrailingDots_cons_of_ne r2 (isDig_ne_dot h2.1)
            have hnn : dropTrailingDots (c2 :: r2) ≠ [] := by
              rw [hdt2]
              simp
            rw [dropTrailingDots_cons_of_ne_nil '.' (c2 :: r2) hnn, splitDots_dot, hsplit]
            obtain ⟨s0, segs0, hsp0⟩ :
                ∃ s0 segs0, splitDots (dropTrailingDots r2) = s0 :: segs0 := by
              cases hx : splitDots (dropTrailingDots r2) with
              | nil => exact absurd hx (splitDots_ne_nil _)
              | cons a b => exact ⟨a, b, rfl⟩
            have hshape : splitDots (dropTrailingDots (c2 :: r2)) = (c2 :: s0) :: segs0 := by
              rw [hdt2]
              exact splitDots_cons_of_ne _ (isDig_ne_dot h2.1) hsp0
            rw [hsplit] at hshape
            have hsegne : seg ≠ [] := by
              injection hshape with h1 h2
              rw [h1]
              simp
            refine ⟨[], seg :: segs, rfl, rfl, ?_⟩
            intro s hs
            rcases List.mem_cons.1 hs with rfl | hs'
            · exact ⟨hsegne, hseg⟩
            · exact hsegs s hs'

/-- Accepted codes split (after stripping dots) into non-empty all-digit
segments. -/
theorem matches_segments (s : String) (h : matchesHierCode s = true) :
    ∀ seg ∈ splitDots (stripDots s.data), seg ≠ [] ∧ seg.all isDig = true := by
  unfold matchesHierCode at h
  cases hs : s.data with
  | nil =>
      rw [hs] at h
      exact absurd h (by decide)
  | cons d l =>
      rw [hs] at h
      rw [hierRun] at h
      have hd : isDig d = true := (Bool.and_eq_true_iff.1 h).1
      have hl : hierRun .inDigits l = true := (Bool.and_eq_true_iff.1 h).2
      have hstrip : stripDots (d :: l) = dropTrailingDots (d :: l) := by
        unfold stripDots
        rw [List.dropWhile_cons]
        simp [isDig_ne_dot hd]
      rcases hierRun_segments l hl with ⟨seg, segs, hsplit, hseg, hsegs⟩
      rw [hstrip, dropTrailingDots_cons_of_ne l (isDig_ne_dot hd),
          splitDots_cons_of_ne _ (isDig_ne_dot hd) hsplit]
      intro x hx
      rcases List.mem_cons.1 hx with rfl | hx2
      · exact ⟨List.cons_ne_nil _ _, by simp [List.all_cons, hd, hseg]⟩
      · exact hsegs x hx2

theorem parseSegs_isSome_of_bounded {segs : List (List Char)}
    (h : ∀ s ∈ segs, s ≠ [] ∧ s.all isDig = true ∧ digitsVal s 0 < 2 ^ 63) :
    (parseSegs segs).isSome = true := by
  induction segs with
  | nil => rfl
  | cons s rest ih =>
      have hs := h s (by simp)
      have hps : parseSeg s = some (digitsVal s 0) := by
        unfold parseSeg
        rw [if_pos ⟨hs.1, hs.2.1, hs.2.2⟩]
      unfold parseSegs
      rw [hps]
      rcases Option.isSome_iff_exists.1 (ih (fun x hx => h x (List.mem_cons_of_mem _ hx)))
        with ⟨v, hv⟩
      rw [hv]
      rfl

/-- Inversion of a successful cast of one segment. -/
theorem parseSeg_some_inv {s : List Char} {n : Nat} (h : parseSeg s = some n) :
    s ≠ [] ∧ s.all isDig = true ∧ digitsVal s 0 < 2 ^ 63 := by
  unfold parseSeg at h
  by_cases hc : s ≠ [] ∧ s.all isDig = true ∧ digitsVal s 0 < 2 ^ 63
  · exact hc
  · rw [if_neg hc] at h
    cases h

/-- When every segment casts, every segment value fits in Int64. -/
theorem parseSegs_bounded_of_isSome {segs : List (List Char)}
    (h : (parseSegs segs).isSome = true) :
    ∀ s ∈ segs, digitsVal s 0 < 2 ^ 63 := by
  induction segs with
  | nil => simp
  | cons s rest ih =>
      unfold parseSegs at h
      cases hp : parseSeg s with
      | none => rw [hp] at h; cases h
      | some n =>
          rw [hp] at h
          cases hr : parseSegs rest with
          | none => rw [hr] at h; cases h
          | some ns =>
              intro x hx
              rcases List.mem_cons.1 hx with rfl | hx2
              · exact (parseSeg_some_inv hp).2.2
              · exact ih (by rw [hr]; rfl) x hx2

/-- A failing keyed pass names a code whose cast failed. -/
theorem keyRows_none {ps : List (String × String)} (h : keyRows ps = none) :
    ∃ p ∈ ps, sortKey p.1 = none := by
  induction ps with
  | nil => unfold keyRows at h; cases h
  | cons p rest ih =>
      unfold keyRows at h
      cases hk : sortKey p.1 with
      | none => exact ⟨p, List.mem_cons_self _ _, hk⟩
      | some k =>
          rw [hk] at h
          cases hks : keyRows rest with
          | none =>
              rcases ih hks with ⟨q, hq, hqk⟩
              exact ⟨q, List.mem_cons_of_mem _ hq, hqk⟩
          | some ks => rw [hks] at h; cases h

/-- The keyed list is the surviving pairs, each paired with its key. -/
theorem keyRows_spec {ps : List (String × String)}
    {ks : List ((String × String) × List Nat)} (h : keyRows ps = some ks) :
    ks.map (fun pk => pk.1) = ps ∧ ∀ pk ∈ ks, sortKey pk.1.1 = some pk.2 := by
  induction ps generalizing ks with
  | nil =>
      unfold keyRows at h
      cases h
      exact ⟨rfl, by simp⟩
  | cons p rest ih =>
      unfold keyRows at h
      cases hk : sortKey p.1 with
      | none => rw [hk] at h; cases h
      | some k =>
          rw [hk] at h
          cases hks : keyRows rest with
          | none => rw [hks] at h; cases h
          | some krest =>
              rw [hks] at h
              cases h
              rcases ih hks with ⟨ih1, ih2⟩
              constructor
              · simp [ih1]
              · intro pk hpk
                rcases List.mem_cons.1 hpk with rfl | hpk2
                · exact hk
                · exact ih2 pk hpk2

/-- Shape of the builder output: the empty table when the pipeline
raises, otherwise the sorted keyed survivors. -/
theorem build_shape (catalog : List (String × String)) :
    (buildCategoryTable? catalog = none ∧ buildCategoryTable catalog = []) ∨
    ∃ keyed, keyRows ((catalog.dedup).filter (fun p => matchesHierCode p.1)) = some keyed ∧
      buildCategoryTable? catalog =
        some ((List.insertionSort kle keyed).map
          (fun pk => ⟨pk.1.1, pk.1.2, none, false⟩)) ∧
      buildCategoryTable catalog =
        (List.insertionSort kle keyed).map (fun pk => ⟨pk.1.1, pk.1.2, none, false⟩) := by
  unfold buildCategoryTable buildCategoryTable?
  cases hk : keyRows ((catalog.dedup).filter (fun p => matchesHierCode p.1)) with
  | none => exact Or.inl ⟨rfl, rfl⟩
  | some keyed => exact Or.inr ⟨keyed, rfl, rfl, rfl⟩

/-- C9 counterexample: a twenty-digit code matches the filter pattern,
yet its single segment overflows Int64, so the strict cast raises — the
fail-loudly branch is reachable for a surviving code. -/
theorem claim_c9_counterexample :
    matchesHierCode "99999999999999999999" = true ∧
    sortKey "99999999999999999999" = none ∧
    buildCategoryTable? [("99999999999999999999", "A")] = none := by
  refine ⟨by decide, by decide, by decide⟩

/-- C9 (amended): a matching code splits, after stripping the trailing
dot, into non-empty all-digit segments, and every segment parses — so
the fail-loudly cast branch is unreachable — exactly when every segment
value fits in Int64; a larger segment reaches the fail branch. -/
theorem claim_c9_survivor_segments (s : String) (h : matchesHierCode s = true) :
    (∀ seg ∈ splitDots (stripDots s.data), seg ≠ [] ∧ seg.all isDig = true) ∧
    ((∀ seg ∈ splitDots (stripDots s.data), digitsVal seg 0 < 2 ^ 63) ↔
      (sortKey s).isSome = true) := by
  refine ⟨matches_segments s h, ?_, ?_⟩
  · intro hb
    show (parseSegs (splitDots (stripDots s.data))).isSome = true
    apply parseSegs_isSome_of_bounded
    intro seg hseg
    rcases matches_segments s h seg hseg with ⟨h1, h2⟩
    exact ⟨h1, h2, hb seg hseg⟩
  · intro hsome
    exact parseSegs_bounded_of_isSome hsome

/-- Witness for C9 (amended) at a concrete surviving code with a
trailing dot, discharging the Int64 bound. -/
theorem claim_c9_witness : (sortKey "1.2.30.").isSome = true :=
  (claim_c9_survivor_segments "1.2.30." (by decide)).2.mp (by decide)

/-- Membership in a successfully built canonical table is exactly
catalog membership plus a matching code. -/
theorem build_mem_iff {catalog : List (String × String)} {t : List Row}
    (hb : buildCategoryTable? catalog = some t) (c n : String) :
    (∃ r ∈ t, r.group_code = c ∧ r.group_name = n) ↔
      ((c, n) ∈ catalog ∧ matchesHierCode c = true) := by
  rcases build_shape catalog with ⟨hnone, _⟩ | ⟨keyed, hk, hsome, _⟩
  · rw [hnone] at hb
    cases hb
  · rw [hsome] at hb
    have ht : t = (List.insertionSort kle keyed).map
        (fun pk => ⟨pk.1.1, pk.1.2, none, false⟩) :=
      (Option.some_injective _ hb).symm
    rcases keyRows_spec hk with ⟨hfst, _⟩
    rw [ht]
    constructor
    · rintro ⟨r, hr, hc, hn⟩
      rcases List.mem_map.1 hr with ⟨pk, hpk, hpkr⟩
      have hpk2 : pk ∈ keyed := (List.mem_insertionSort kle).1 hpk
      have hmem : pk.1 ∈ (catalog.dedup).filter (fun p => matchesHierCode p.1) := by
        rw [← hfst]
        exact List.mem_map_of_mem (fun pk => pk.1) hpk2
      have hm := List.mem_filter.1 hmem
      have h1 : pk.1.1 = c := by rw [← hc, ← hpkr]
      have h2 : pk.1.2 = n := by rw [← hn, ← hpkr]
      have hp : pk.1 = (c, n) := by
        rw [← h1, ← h2]
      rw [hp] at hm
      exact ⟨List.mem_dedup.1 hm.1, by simpa using hm.2⟩
    · rintro ⟨hcat, hmatch⟩
      have hmem : (c, n) ∈ (catalog.dedup).filter (fun p => matchesHierCode p.1) :=
        List.mem_filter.2 ⟨List.mem_dedup.2 hcat, by simpa using hmatch⟩
      rw [← hfst] at hmem
      rcases List.mem_map.1 hmem with ⟨pk, hpk, hpkc⟩
      refine ⟨⟨pk.1.1, pk.1.2, none, false⟩,
        List.mem_map_of_mem _ ((List.mem_insertionSort kle).2 hpk), ?_, ?_⟩
      · rw [show pk.1.1 = (c, n).1 from by rw [hpkc]]
      · rw [show pk.1.2 = (c, n).2 from by rw [hpkc]]

/-- C4 counterexample: the twenty-nines code matches the pattern, yet
the builder pipeline raises on it instead of the row surviving — the
survives-iff-matches equivalence fails, and the error is caused by a
matching row. -/
theorem claim_c4_counterexample :
    matchesHierCode "99999999999999999999" = true ∧
    buildCategoryTable? [("99999999999999999999", "Huge")] = none ∧
    buildCategoryTable [("99999999999999999999", "Huge")] = [] := by
  refine ⟨by decide, by decide, by decide⟩

/-- C4 (amended): when the builder pipeline succeeds, a catalog row
appears in the canonical table iff its group code matches the pattern —
non-matching rows are silently dropped; and when the pipeline raises,
the failure is caused by a matching code whose cast failed, never by a
non-matching row. -/
theorem claim_c4_filter (catalog : List (String × String)) (c n : String)
    (hmem : (c, n) ∈ catalog) :
    (∀ t, buildCategoryTable? catalog = some t →
      ((∃ r ∈ t, r.group_code = c ∧ r.group_name = n) ↔ matchesHierCode c = true))
    ∧ (buildCategoryTable? catalog = none →
        ∃ p ∈ catalog, matchesHierCode p.1 = true ∧ sortKey p.1 = none) := by
  constructor
  · intro t hb
    rw [build_mem_iff hb]
    constructor
    · exact fun h => h.2
    · exact fun h => ⟨hmem, h⟩
  · intro hnone
    unfold buildCategoryTable? at hnone
    cases hk : keyRows ((catalog.dedup).filter (fun p => matchesHierCode p.1)) with
    | some keyed => rw [hk] at hnone; cases hnone
    | none =>
        rcases keyRows_none hk with ⟨p, hp, hpk⟩
        have hm := List.mem_filter.1 hp
        exact ⟨p, List.mem_dedup.1 hm.1, by simpa using hm.2, hpk⟩

/-- Witness for C4 (amended): the matching code of a concrete two-row
catalog survives in the successfully built table. -/
theorem claim_c4_witness :
    ∃ r ∈ buildCategoryTable [("1", "A"), ("x!", "B")],
      r.group_code = "1" ∧ r.group_name = "A" :=
  ((claim_c4_filter [("1", "A"), ("x!", "B")] "1" "A" (by decide)).1
    (buildCategoryTable [("1", "A"), ("x!", "B")]) (by decide)).mpr (by decide)

/-- The canonical table never repeats a `(group_code, group_name)` pair. -/
theorem build_pairs_nodup (catalog : List (String × String)) :
    ((buildCategoryTable catalog).map (fun r => (r.group_code, r.group_name))).Nodup := by
  rcases build_shape catalog with ⟨_, hnil⟩ | ⟨keyed, hk, _, hb⟩
  · rw [hnil]
    exact List.nodup_nil
  · rcases keyRows_spec hk with ⟨hfst, _⟩
    rw [hb, List.map_map]
    have hcongr :
        ((List.insertionSort kle keyed).map
          ((fun r : Row => (r.group_code, r.group_name)) ∘
            (fun pk : (String × String) × List Nat =>
              (⟨pk.1.1, pk.1.2, none, false⟩ : Row)))) =
        (List.insertionSort kle keyed).map (fun pk => pk.1) := by
      apply List.map_congr_left
      intro pk _
      rfl
    rw [hcongr]
    have hperm : List.Perm ((List.insertionSort kle keyed).map (fun pk => pk.1))
        (keyed.map (fun pk => pk.1)) :=
      (List.perm_insertionSort kle keyed).map _
    rw [hperm.nodup_iff, hfst]
    exact (List.nodup_dedup catalog).filter _

/-- C7 counterexample: a catalog pairing the same code with two distinct
names yields a canonical table with a duplicated `group_code`. -/
theorem claim_c7_counterexample :
    (buildCategoryTable [("1", "A"), ("1", "B")]).map (fun r => r.group_code) = ["1", "1"] ∧
      ¬ ((buildCategoryTable [("1", "A"), ("1", "B")]).map (fun r => r.group_code)).Nodup := by
  constructor
  · decide
  · decide

/-- C7 (amended): the `(group_code, group_name)` pairs of the canonical
table are unique, and the `group_code` values themselves are unique
provided the catalog pairs each surviving code with a single name. -/
theorem claim_c7_uniqueness (catalog : List (String × String)) :
    ((buildCategoryTable catalog).map (fun r => (r.group_code, r.group_name))).Nodup ∧
      ((∀ r1 ∈ buildCategoryTable catalog, ∀ r2 ∈ buildCategoryTable catalog,
          r1.group_code = r2.group_code → r1.group_name = r2.group_name) →
        ((buildCategoryTable catalog).map (fun r => r.group_code)).Nodup) := by
  refine ⟨build_pairs_nodup catalog, fun hsame => ?_⟩
  have hpairs := build_pairs_nodup catalog
  have hnd : (buildCategoryTable catalog).Nodup := List.Nodup.of_map _ hpairs
  have hinj := List.inj_on_of_nodup_map hpairs
  rw [List.nodup_map_iff_inj_on hnd]
  intro r1 h1 r2 h2 hcode
  apply hinj h1 h2
  rw [hcode, hsame r1 h1 r2 h2 hcode]

/-- Witness for C7 (amended) at a concrete catalog with one name per
code. -/
theorem claim_c7_witness :
    ((buildCategoryTable [("1", "A"), ("2", "B")]).map (fun r => r.group_code)).Nodup :=
  (claim_c7_uniqueness [("1", "A"), ("2", "B")]).2 (by decide)

/-! ### The hierarchical order -/

theorem keyLE_total : ∀ a b : List Nat, keyLE a b = true ∨ keyLE b a = true
  | [], _ => Or.inl rfl
  | _ :: _, [] => Or.inr rfl
  | a :: as, b :: bs => by
      rcases Nat.lt_trichotomy a b with h | h | h
      · left
        simp [keyLE, h]
      · subst h
        rcases keyLE_total as bs with h2 | h2
        · left
          simp [keyLE, h2]
        · right
          simp [keyLE, h2]
      · right
        simp [keyLE, h]

theorem keyLE_trans : ∀ a b c : List Nat,
    keyLE a b = true → keyLE b c = true → keyLE a c = true
  | [], _, _, _, _ => rfl
  | _ :: _, [], _, h1, _ => by simp [keyLE] at h1
  | _ :: _, _ :: _, [], _, h2 => by simp [keyLE] at h2
  | a :: as, b :: bs, c :: cs, h1, h2 => by
      simp only [keyLE, Bool.or_eq_true, Bool.and_eq_true, decide_eq_true_eq] at h1 h2 ⊢
      rcases h1 with h1 | ⟨he1, h1⟩
      · rcases h2 with h2 | ⟨he2, h2⟩
        · exact Or.inl (h1.trans h2)
        · subst he2
          exact Or.inl h1
      · subst he1
        rcases h2 with h2 | ⟨he2, h2⟩
        · exact Or.inl h2
        · subst he2
          exact Or.inr ⟨rfl, keyLE_trans as bs cs h1 h2⟩

theorem keyLE_antisymm : ∀ a b : List Nat,
    keyLE a b = true → keyLE b a = true → a = b
  | [], [], _, _ => rfl
  | [], _ :: _, _, h2 => by simp [keyLE] at h2
  | _ :: _, [], h1, _ => by simp [keyLE] at h1
  | a :: as, b :: bs, h1, h2 => by
      simp only [keyLE, Bool.or_eq_true, Bool.and_eq_true, decide_eq_true_eq] at h1 h2
      rcases h1 with h1 | ⟨he1, h1⟩
      · rcases h2 with h2 | ⟨he2, h2⟩
        · exact absurd (h1.trans h2) (Nat.lt_irrefl _)
        · subst he2
          exact absurd h1 (Nat.lt_irrefl _)
      · subst he1
        rcases h2 with h2 | ⟨_, h2⟩
        · exact absurd h2 (Nat.lt_irrefl _)
        · rw [keyLE_antisymm as bs h1 h2]

theorem keyLE_iff_lt_or_eq : ∀ a b : List Nat,
    keyLE a b = true ↔ (specLexLt a b = true ∨ a = b)
  | [], [] => by simp [keyLE, specLexLt]
  | [], _ :: _ => by simp [keyLE, specLexLt]
  | _ :: _, [] => by simp [keyLE, specLexLt]
  | a :: as, b :: bs => by
      simp only [keyLE, specLexLt, Bool.or_eq_true, Bool.and_eq_true, decide_eq_true_eq]
      constructor
      · rintro (h | ⟨rfl, h⟩)
        · exact Or.inl (Or.inl h)
        · rcases (keyLE_iff_lt_or_eq as bs).1 h with h2 | rfl
          · exact Or.inl (Or.inr ⟨rfl, h2⟩)
          · exact Or.inr rfl
      · rintro ((h | ⟨rfl, h⟩) | heq)
        · exact Or.inl h
        · exact Or.inr ⟨rfl, (keyLE_iff_lt_or_eq as bs).2 (Or.inl h)⟩
        · cases heq
          exact Or.inr ⟨rfl, (keyLE_iff_lt_or_eq as as).2 (Or.inr rfl)⟩

theorem specLexLt_irrefl : ∀ a : List Nat, specLexLt a a = false
  | [] => rfl
  | a :: as => by simp [specLexLt, specLexLt_irrefl as]

theorem specLexLt_asymm {a b : List Nat} (h1 : specLexLt a b = true)
    (h2 : specLexLt b a = true) : False := by
  have hab : keyLE a b = true := (keyLE_iff_lt_or_eq a b).2 (Or.inl h1)
  have hba : keyLE b a = true := (keyLE_iff_lt_or_eq b a).2 (Or.inl h2)
  have heq := keyLE_antisymm a b hab hba
  subst heq
  rw [specLexLt_irrefl a] at h1
  cases h1

instance : IsTotal ((String × String) × List Nat) kle :=
  ⟨fun a b => keyLE_total a.2 b.2⟩

instance : IsTrans ((String × String) × List Nat) kle :=
  ⟨fun a b c => keyLE_trans a.2 b.2 c.2⟩

/-- Integer-segment key of a canonical row (always defined for rows of
the canonical table). -/
def keyOf (r : Row) : List Nat := (sortKey r.group_code).getD []

/-- The canonical table is sorted by `keyLE` on its integer-segment
keys. -/
theorem build_sorted (catalog : List (String × String))
    (i j : Fin (buildCategoryTable catalog).length) (hij : (i : ℕ) < (j : ℕ)) :
    keyLE (keyOf ((buildCategoryTable catalog).get i))
      (keyOf ((buildCategoryTable catalog).get j)) = true := by
  rcases build_shape catalog with ⟨_, hnil⟩ | ⟨keyed, hk, _, hb⟩
  · exfalso
    have hi0 := i.2
    have hlen0 : (buildCategoryTable catalog).length = 0 := by rw [hnil]; rfl
    omega
  rcases keyRows_spec hk with ⟨_, hkeys⟩
  have hsorted := List.sorted_insertionSort kle keyed
  have hlen : (buildCategoryTable catalog).length = (List.insertionSort kle keyed).length := by
    rw [hb, List.length_map]
  have hi : (i : ℕ) < (List.insertionSort kle keyed).length := by
    rw [← hlen]
    exact i.2
  have hj : (j : ℕ) < (List.insertionSort kle keyed).length := by
    rw [← hlen]
    exact j.2
  have hkle : kle ((List.insertionSort kle keyed).get ⟨(i : ℕ), hi⟩)
      ((List.insertionSort kle keyed).get ⟨(j : ℕ), hj⟩) :=
    List.pairwise_iff_get.1 hsorted ⟨(i : ℕ), hi⟩ ⟨(j : ℕ), hj⟩ hij
  have hget : ∀ (m : Fin (buildCategoryTable catalog).length)
      (hm : (m : ℕ) < (List.insertionSort kle keyed).length),
      (buildCategoryTable catalog).get m =
        (fun pk : (String × String) × List Nat => (⟨pk.1.1, pk.1.2, none, false⟩ : Row))
          ((List.insertionSort kle keyed).get ⟨(m : ℕ), hm⟩) := by
    intro m hm
    rw [List.get_eq_getElem, List.get_eq_getElem]
    simp only [hb, List.getElem_map]
  have hkeyOf : ∀ pk ∈ List.insertionSort kle keyed,
      keyOf ((fun pk : (String × String) × List Nat =>
        (⟨pk.1.1, pk.1.2, none, false⟩ : Row)) pk) = pk.2 := by
    intro pk hpk
    unfold keyOf
    show (sortKey pk.1.1).getD [] = pk.2
    rw [hkeys pk ((List.mem_insertionSort kle).1 hpk)]
    rfl
  rw [hget i hi, hget j hj,
      hkeyOf _ (List.get_mem _ _ _),
      hkeyOf _ (List.get_mem _ _ _)]
  exact hkle

/-- C3 counterexample: codes `"1"` and `"1."` both survive, have the same
integer-segment sequence `[1]`, yet `"1"` precedes `"1."` in the canonical
table, so precedence is not equivalent to strict lexicographic order on
the sequences. -/
theorem claim_c3_counterexample :
    (buildCategoryTable [("1", "x"), ("1.", "y")]).map (fun r => r.group_code) = ["1", "1."] ∧
      sortKey "1" = some [1] ∧ sortKey "1." = some [1] ∧ specLexLt [1] [1] = false := by
  refine ⟨by decide, by decide, by decide, rfl⟩

/-- C3 (amended): for rows of the canonical table whose integer-segment
sequences differ, position order coincides with strict lexicographic
order on the sequences; and the concrete seven-code catalog produces the
canonical order `1, 1.2, 1.2.3, 1.10, 2` with the two malformed codes
dropped. -/
theorem claim_c3_sort_order :
    (∀ (catalog : List (String × String))
       (i j : Fin (buildCategoryTable catalog).length),
       keyOf ((buildCategoryTable catalog).get i) ≠ keyOf ((buildCategoryTable catalog).get j) →
       ((i : ℕ) < (j : ℕ) ↔
         specLexLt (keyOf ((buildCategoryTable catalog).get i))
           (keyOf ((buildCategoryTable catalog).get j)) = true))
    ∧ (buildCategoryTable [("2", "n2"), ("1.2", "n12"), ("1.10", "n110"), ("1", "n1"),
        ("1.2.3", "n123"), ("abc", "na"), ("1.2.3.x", "nx")]).map (fun r => r.group_code) =
        ["1", "1.2", "1.2.3", "1.10", "2"] := by
  constructor
  · intro catalog i j hne
    constructor
    · intro hij
      have hle := build_sorted catalog i j hij
      rcases (keyLE_iff_lt_or_eq _ _).1 hle with h | h
      · exact h
      · exact absurd h hne
    · intro hlt
      rcases Nat.lt_trichotomy (i : ℕ) (j : ℕ) with h | h | h
      · exact h
      · exfalso
        exact hne (by rw [show i = j from Fin.ext h])
      · exfalso
        have hle := build_sorted catalog j i h
        rcases (keyLE_iff_lt_or_eq _ _).1 hle with h2 | h2
        · exact specLexLt_asymm hlt h2
        · exact hne h2.symm
  · decide

/-- Witness for C3 (amended) at a concrete two-code catalog. -/
theorem claim_c3_witness :
    (0 : ℕ) < (1 : ℕ) ↔
      specLexLt
        (keyOf ((buildCategoryTable [("2", "n2"), ("1.2", "n12")]).get ⟨0, by decide⟩))
        (keyOf ((buildCategoryTable [("2", "n2"), ("1.2", "n12")]).get ⟨1, by decide⟩)) = true :=
  claim_c3_sort_order.1 [("2", "n2"), ("1.2", "n12")] ⟨0, by decide⟩ ⟨1, by decide⟩ (by decide)



/-! ### Dynamic validation: characterisation lemmas -/

theorem except_bind_ok {α β : Type} (a : α) (f : α → Except PyErr β) :
    (Except.ok a >>= f) = f a := rfl

theorem except_bind_error {α β : Type} (e : PyErr) (f : α → Except PyErr β) :
    ((Except.error e : Except PyErr α) >>= f) = Except.error e := rfl

/-- Dynamic use-level values on which the Python comparisons of
`validate_table` are defined without raising. -/
def levelOk : JVal → Bool
  | .null => true
  | .num _ => true
  | .bool _ => true
  | _ => false

/-- Whether a dynamic use-level counts as missing or non-positive for the
correction loop (`is None or <= 0`). -/
def levelLow : JVal → Bool
  | .null => true
  | .num q => decide (q ≤ 0)
  | .bool b => !b
  | _ => false

/-- Whether a dynamic use-level counts as strictly positive for the
enable check (`is not None and > 0`). -/
def levelPos : JVal → Bool
  | .num q => decide (0 < q)
  | .bool b => b
  | _ => false

/-- Total form of the correction loop body on defined levels. -/
def fixDynRow (r : DynRow) : DynRow :=
  if levelLow r.use_level then { r with consumers_of := .bool false } else r

theorem dynFixRow_ok {r : DynRow} (h : levelOk r.use_level = true) :
    dynFixRow r = .ok (fixDynRow r) := by
  unfold dynFixRow fixDynRow
  cases hv : r.use_level with
  | null => simp [isNullJ, levelLow]
  | num q =>
      by_cases hq : q ≤ 0 <;>
        simp [isNullJ, levelLow, pyLeZero, except_bind_ok, hq]
  | bool b =>
      cases b <;> simp [isNullJ, levelLow, pyLeZero, except_bind_ok]
  | str s => rw [hv] at h; exact absurd h (by simp [levelOk])
  | list l => rw [hv] at h; exact absurd h (by simp [levelOk])
  | obj fs => rw [hv] at h; exact absurd h (by simp [levelOk])

/-- A successful correction of one row implies its level was defined. -/
theorem dynFixRow_inv {r r2 : DynRow} (h : dynFixRow r = .ok r2) :
    levelOk r.use_level = true ∧ r2 = fixDynRow r := by
  cases hv : r.use_level with
  | null =>
      refine ⟨by simp [hv, levelOk], ?_⟩
      rw [dynFixRow_ok (by simp [hv, levelOk])] at h
      cases h
      rfl
  | num q =>
      refine ⟨by simp [hv, levelOk], ?_⟩
      rw [dynFixRow_ok (by simp [hv, levelOk])] at h
      cases h
      rfl
  | bool b =>
      refine ⟨by simp [hv, levelOk], ?_⟩
      rw [dynFixRow_ok (by simp [hv, levelOk])] at h
      cases h
      rfl
  | str s =>
      exfalso
      unfold dynFixRow at h
      rw [hv] at h
      simp [isNullJ, pyLeZero, except_bind_error] at h
  | list l =>
      exfalso
      unfold dynFixRow at h
      rw [hv] at h
      simp [isNullJ, pyLeZero, except_bind_error] at h
  | obj fs =>
      exfalso
      unfold dynFixRow at h
      rw [hv] at h
      simp [isNullJ, pyLeZero, except_bind_error] at h

/-- The corrected row satisfies the cross-field invariant. -/
theorem fixDynRow_invariant (r : DynRow) :
    levelLow (fixDynRow r).use_level = true → (fixDynRow r).consumers_of = .bool false := by
  unfold fixDynRow
  by_cases hl : levelLow r.use_level = true
  · rw [if_pos hl]
    intro _
    rfl
  · rw [if_neg hl]
    intro h2
    exact absurd h2 hl

theorem dynFixRows_ok {t : List DynRow} (h : ∀ r ∈ t, levelOk r.use_level = true) :
    dynFixRows t = .ok (t.map fixDynRow) := by
  induction t with
  | nil => rfl
  | cons r rs ih =>
      unfold dynFixRows
      rw [dynFixRow_ok (h r (by simp)), ih (fun x hx => h x (List.mem_cons_of_mem _ hx))]
      rfl

theorem dynEnable_ok {t : List DynRow} (h : ∀ r ∈ t, levelOk r.use_level = true) :
    dynEnable t = .ok (t.any (fun r => levelPos r.use_level)) := by
  induction t with
  | nil => rfl
  | cons r rs ih =>
      have hr := h r (by simp)
      have ihr := ih (fun x hx => h x (List.mem_cons_of_mem _ hx))
      unfold dynEnable
      cases hv : r.use_level with
      | null => simp [isNullJ, hv, ihr, List.any_cons, levelPos]
      | num q =>
          by_cases hq : 0 < q <;>
            simp [isNullJ, hv, pyGtZero, except_bind_ok, hq, ihr, List.any_cons, levelPos]
      | bool b =>
          cases b <;>
            simp [isNullJ, hv, pyGtZero, except_bind_ok, ihr, List.any_cons, levelPos]
      | str s => rw [hv] at hr; exact absurd hr (by simp [levelOk])
      | list l => rw [hv] at hr; exact absurd hr (by simp [levelOk])
      | obj fs => rw [hv] at hr; exact absurd hr (by simp [levelOk])

theorem validate_table_dyn_ok {t : List DynRow} (h : ∀ r ∈ t, levelOk r.use_level = true) :
    validate_table_dyn t =
      .ok (!(t.any (fun r => levelPos r.use_level)), t.map fixDynRow) := by
  unfold validate_table_dyn
  rw [dynEnable_ok h, except_bind_ok, dynFixRows_ok h, except_bind_ok]

/-- Inversion: a successful dynamic validation came from a successful
correction loop. -/
theorem validate_table_dyn_inv {t : List DynRow} {b : Bool} {out : List DynRow}
    (h : validate_table_dyn t = .ok (b, out)) : dynFixRows t = .ok out := by
  unfold validate_table_dyn at h
  cases he : dynEnable t with
  | error e => rw [he, except_bind_error] at h; cases h
  | ok eb =>
      rw [he, except_bind_ok] at h
      cases hf : dynFixRows t with
      | error e => rw [hf, except_bind_error] at h; cases h
      | ok t2 =>
          rw [hf, except_bind_ok] at h
          cases h
          rfl

/-- Every row of a successfully corrected table satisfies the cross-field
invariant. -/
theorem dynFixRows_invariant {t out : List DynRow} (h : dynFixRows t = .ok out) :
    ∀ r ∈ out, levelLow r.use_level = true → r.consumers_of = .bool false := by
  induction t generalizing out with
  | nil =>
      unfold dynFixRows at h
      cases h
      simp
  | cons r rs ih =>
      unfold dynFixRows at h
      cases hr : dynFixRow r with
      | error e => rw [hr, except_bind_error] at h; cases h
      | ok r2 =>
          rw [hr, except_bind_ok] at h
          cases hrs : dynFixRows rs with
          | error e => rw [hrs, except_bind_error] at h; cases h
          | ok t2 =>
              rw [hrs, except_bind_ok] at h
              cases h
              intro x hx hlow
              rcases List.mem_cons.1 hx with rfl | hx2
              · rw [(dynFixRow_inv hr).2]
                exact fixDynRow_invariant r ((dynFixRow_inv hr).2 ▸ hlow)
              · exact ih hrs x hx2 hlow

/-- Rows of the canonical table carry the default editable values. -/
theorem build_defaults (catalog : List (String × String)) :
    ∀ r ∈ buildCategoryTable catalog, r.use_level = none ∧ r.consumers_of = false := by
  rcases build_shape catalog with ⟨_, hnil⟩ | ⟨keyed, _, _, hb⟩
  · rw [hnil]
    intro r hr
    cases hr
  · rw [hb]
    intro r hr
    rcases List.mem_map.1 hr with ⟨pk, _, hpk⟩
    rw [← hpk]
    exact ⟨rfl, rfl⟩

/-- A successful restore passed its merged table through the correction
loop. -/
theorem restoreCore_ok_inv {catalog : List (String × String)} {session : JVal}
    {res : Bool × List DynRow} (h : restoreCore catalog session = .ok res) :
    ∃ merged, dynFixRows merged = .ok res.2 := by
  unfold restoreCore at h
  cases hit : pyIter session with
  | error e => rw [hit, except_bind_error] at h; cases h
  | ok items =>
      rw [hit, except_bind_ok] at h
      cases hm : buildSessionMap items with
      | error e => rw [hm, except_bind_error] at h; cases h
      | ok m =>
          rw [hm, except_bind_ok] at h
          cases hmg : mergeRows m ((buildCategoryTable catalog).map Row.toDyn) with
          | error e => rw [hmg, except_bind_error] at h; cases h
          | ok merged =>
              rw [hmg, except_bind_ok] at h
              exact ⟨merged, validate_table_dyn_inv h⟩

/-- C5: whatever dynamic value the session holds — null, a non-list,
entries missing keys, entries with unknown codes — `expand` returns a
table satisfying the cross-field invariant without raising, and whenever
the restore body raised internally the result is the canonical reset
table, the same value `expand(null)` returns. -/
theorem claim_c5_expand_resilience (catalog : List (String × String)) (session : JVal) :
    (∀ r ∈ (restore_table_from_session catalog session).2,
        levelLow r.use_level = true → r.consumers_of = .bool false)
    ∧ (∀ e, restoreCore catalog session = .error e →
        restore_table_from_session catalog session =
          restore_table_from_session catalog .null) := by
  constructor
  · intro r hr hlow
    unfold restore_table_from_session at hr
    cases hres : restoreCore catalog session with
    | error e =>
        rw [hres] at hr
        unfold clear_table at hr
        rcases List.mem_map.1 hr with ⟨r0, hr0, hr0d⟩
        rcases build_defaults catalog r0 hr0 with ⟨_, hco⟩
        rw [← hr0d]
        show JVal.bool r0.consumers_of = JVal.bool false
        rw [hco]
    | ok res =>
        rw [hres] at hr
        rcases restoreCore_ok_inv hres with ⟨merged, hfix⟩
        exact dynFixRows_invariant hfix r hr hlow
  · intro e he
    unfold restore_table_from_session
    rw [he]
    rw [show restoreCore catalog JVal.null = Except.error PyErr.typeError from rfl]

/-- Witness for C5: a numeric (non-iterable) session payload produces the
same reset table as a null payload. -/
theorem claim_c5_witness :
    restore_table_from_session [("1", "A")] (.num 3) =
      restore_table_from_session [("1", "A")] .null :=
  (claim_c5_expand_resilience [("1", "A")] (.num 3)).2 .typeError rfl

/-! ### Restoration: total forms of the merge loop -/

/-- Total form of the merge body when every session item is a dict. -/
def mergeRowT (m : List (JVal × JVal)) (r : DynRow) : DynRow :=
  match mapLookupStr m r.group_code with
  | none => r
  | some (.obj fs) =>
      { r with use_level := (fs.lookup "use_level").getD .null,
               consumers_of := (fs.lookup "consumers_of").getD (.bool false) }
  | some _ => r

theorem mergeRow_ok {m : List (JVal × JVal)} {r : DynRow}
    (hm : ∀ v, mapLookupStr m r.group_code = some v → ∃ fs, v = .obj fs) :
    mergeRow m r = .ok (mergeRowT m r) := by
  unfold mergeRow mergeRowT
  cases hl : mapLookupStr m r.group_code with
  | none => rfl
  | some v =>
      rcases hm v hl with ⟨fs, rfl⟩
      simp [pyDictGet, except_bind_ok]

theorem mergeRows_ok {m : List (JVal × JVal)} {t : List DynRow}
    (hm : ∀ (r : DynRow), ∀ v, mapLookupStr m r.group_code = some v → ∃ fs, v = .obj fs) :
    mergeRows m t = .ok (t.map (mergeRowT m)) := by
  induction t with
  | nil => rfl
  | cons r rs ih =>
      unfold mergeRows
      rw [mergeRow_ok (hm r), except_bind_ok, ih, except_bind_ok]
      rfl

theorem mergeRowT_code (m : List (JVal × JVal)) (r : DynRow) :
    (mergeRowT m r).group_code = r.group_code := by
  unfold mergeRowT
  cases mapLookupStr m r.group_code with
  | none => rfl
  | some v => cases v <;> rfl

theorem fixDynRow_code (r : DynRow) : (fixDynRow r).group_code = r.group_code := by
  unfold fixDynRow
  split <;> rfl

theorem fixDynRow_level (r : DynRow) : (fixDynRow r).use_level = r.use_level := by
  unfold fixDynRow
  split <;> rfl

/-- Computation of a restore from a list session once the session map is
known, all its values are dicts, and the merged levels are defined. -/
theorem restoreCore_of_map {catalog : List (String × String)} {items : List JVal}
    {m : List (JVal × JVal)}
    (hmap : buildSessionMap items = .ok m)
    (hobj : ∀ (r : DynRow), ∀ v, mapLookupStr m r.group_code = some v → ∃ fs, v = .obj fs)
    (hlev : ∀ r ∈ ((buildCategoryTable catalog).map Row.toDyn).map (mergeRowT m),
        levelOk r.use_level = true) :
    restoreCore catalog (.list items) =
      .ok (!(((buildCategoryTable catalog).map Row.toDyn).map (mergeRowT m)).any
              (fun r => levelPos r.use_level),
           (((buildCategoryTable catalog).map Row.toDyn).map (mergeRowT m)).map fixDynRow) := by
  unfold restoreCore
  rw [show pyIter (.list items) = .ok items from rfl, except_bind_ok, hmap, except_bind_ok,
      mergeRows_ok hobj, except_bind_ok, validate_table_dyn_ok hlev]

theorem pyGetItem_obj (fs : List (String × JVal)) (k : String) :
    pyGetItem (.obj fs) k =
      (match fs.lookup k with
       | some v => .ok v
       | none => .error .keyError) := rfl

/-- Session map of a single well-formed dict entry. -/
theorem buildSessionMap_single (fields : List (String × JVal)) (c : String)
    (hgc : fields.lookup "group_code" = some (.str c)) :
    buildSessionMap [.obj fields] = .ok [(.str c, .obj fields)] := by
  have h1 : pyGetItem (.obj fields) "group_code" = .ok (.str c) := by
    rw [pyGetItem_obj, hgc]
  unfold buildSessionMap
  rw [h1, except_bind_ok]
  rfl

theorem pyEqAtom_str (a b : String) : pyEqAtom (.str a) (.str b) = decide (a = b) := rfl

theorem mapLookupStr_single (c code : String) (v : JVal) :
    mapLookupStr [(.str c, v)] code = if c = code then some v else none := by
  by_cases h : c = code <;> simp [mapLookupStr, pyEqAtom_str, h]

theorem levelOk_levelJVal (x : Option ℚ) : levelOk (levelJVal x) = true := by
  cases x <;> rfl

/-- Restoring from a single dict entry: row-by-row form of the result. -/
theorem restore_single_entry {catalog : List (String × String)}
    {fields : List (String × JVal)} {c : String}
    (hgc : fields.lookup "group_code" = some (.str c))
    (hok : levelOk ((fields.lookup "use_level").getD .null) = true) :
    ∃ d, restoreCore catalog (.list [.obj fields]) =
      .ok (d, (buildCategoryTable catalog).map (fun r0 =>
        fixDynRow (if c = r0.group_code then
          ⟨r0.group_code, r0.group_name,
           (fields.lookup "use_level").getD .null,
           (fields.lookup "consumers_of").getD (.bool false)⟩
        else Row.toDyn r0))) := by
  have hmap := buildSessionMap_single fields c hgc
  have hobj : ∀ (r : DynRow) (v : JVal),
      mapLookupStr [(.str c, .obj fields)] r.group_code = some v → ∃ fs, v = .obj fs := by
    intro r v hv
    rw [mapLookupStr_single] at hv
    by_cases h : c = r.group_code
    · rw [if_pos h] at hv
      cases hv
      exact ⟨fields, rfl⟩
    · rw [if_neg h] at hv
      cases hv
  have hrow : ∀ r0 : Row,
      mergeRowT [(.str c, .obj fields)] (Row.toDyn r0) =
        (if c = r0.group_code then
          ⟨r0.group_code, r0.group_name,
           (fields.lookup "use_level").getD .null,
           (fields.lookup "consumers_of").getD (.bool false)⟩
        else Row.toDyn r0) := by
    intro r0
    unfold mergeRowT
    have hcode : (Row.toDyn r0).group_code = r0.group_code := rfl
    by_cases h : c = r0.group_code
    · rw [show mapLookupStr [(.str c, .obj fields)] (Row.toDyn r0).group_code =
          some (.obj fields) from by rw [hcode, mapLookupStr_single, if_pos h]]
      rw [if_pos h]
      rfl
    · rw [show mapLookupStr [(.str c, .obj fields)] (Row.toDyn r0).group_code =
          none from by rw [hcode, mapLookupStr_single, if_neg h]]
      rw [if_neg h]
  have hmerged : ((buildCategoryTable catalog).map Row.toDyn).map
      (mergeRowT [(.str c, .obj fields)]) =
      (buildCategoryTable catalog).map (fun r0 =>
        if c = r0.group_code then
          ⟨r0.group_code, r0.group_name,
           (fields.lookup "use_level").getD .null,
           (fields.lookup "consumers_of").getD (.bool false)⟩
        else Row.toDyn r0) := by
    rw [List.map_map]
    apply List.map_congr_left
    intro r0 _
    exact hrow r0
  have hlev : ∀ r ∈ ((buildCategoryTable catalog).map Row.toDyn).map
      (mergeRowT [(.str c, .obj fields)]), levelOk r.use_level = true := by
    rw [hmerged]
    intro r hr
    rcases List.mem_map.1 hr with ⟨r0, _, hr0⟩
    by_cases h : c = r0.group_code
    · rw [if_pos h] at hr0
      rw [← hr0]
      exact hok
    · rw [if_neg h] at hr0
      rw [← hr0]
      exact levelOk_levelJVal r0.use_level
  refine ⟨!((((buildCategoryTable catalog).map Row.toDyn).map
      (mergeRowT [(.str c, .obj fields)])).any (fun r => levelPos r.use_level)), ?_⟩
  rw [restoreCore_of_map hmap hobj hlev, hmerged, List.map_map]
  rfl

/-- C10: a session entry that is a dict holding the `group_code` of a
canonical row but lacking the `use_level` or the `consumers_of` key is
merged field-by-field with the defaults — `use_level = null` when absent,
`consumers_of = false` when absent — rather than raising or falling back
to the reset table. -/
theorem claim_c10_partial_entry (catalog : List (String × String))
    (fields : List (String × JVal)) (c : String) (u : ℚ)
    (hgc : fields.lookup "group_code" = some (.str c))
    (hc : c ∈ (buildCategoryTable catalog).map (fun r => r.group_code)) :
    (fields.lookup "use_level" = none →
      ∃ d out, restoreCore catalog (.list [.obj fields]) = .ok (d, out) ∧
        (∃ r ∈ out, r.group_code = c) ∧
        ∀ r ∈ out, r.group_code = c →
          r.use_level = .null ∧ r.consumers_of = .bool false)
    ∧ (fields.lookup "use_level" = some (.num u) →
       fields.lookup "consumers_of" = none →
      ∃ d out, restoreCore catalog (.list [.obj fields]) = .ok (d, out) ∧
        (∃ r ∈ out, r.group_code = c) ∧
        ∀ r ∈ out, r.group_code = c →
          r.use_level = .num u ∧ r.consumers_of = .bool false) := by
  rcases List.mem_map.1 hc with ⟨rc, hrc, hrcc⟩
  constructor
  · intro hul
    have hok : levelOk ((fields.lookup "use_level").getD .null) = true := by
      rw [hul]
      rfl
    rcases restore_single_entry hgc hok with ⟨d, hres⟩
    refine ⟨d, _, hres, ?_, ?_⟩
    · refine ⟨_, List.mem_map_of_mem _ hrc, ?_⟩
      rw [fixDynRow_code]
      by_cases h : c = rc.group_code
      · rw [if_pos h]
        exact hrcc
      · exact absurd hrcc.symm h
    · intro r hr hrcode
      rcases List.mem_map.1 hr with ⟨r0, _, hr0⟩
      by_cases h : c = r0.group_code
      · rw [if_pos h] at hr0
        rw [← hr0]
        unfold fixDynRow
        rw [if_pos (by rw [hul]; rfl)]
        rw [hul]
        exact ⟨rfl, rfl⟩
      · exfalso
        rw [if_neg h] at hr0
        apply h
        rw [← hrcode, ← hr0, fixDynRow_code]
        rfl
  · intro hul hco
    have hok : levelOk ((fields.lookup "use_level").getD .null) = true := by
      rw [hul]
      rfl
    rcases restore_single_entry hgc hok with ⟨d, hres⟩
    refine ⟨d, _, hres, ?_, ?_⟩
    · refine ⟨_, List.mem_map_of_mem _ hrc, ?_⟩
      rw [fixDynRow_code]
      by_cases h : c = rc.group_code
      · rw [if_pos h]
        exact hrcc
      · exact absurd hrcc.symm h
    · intro r hr hrcode
      rcases List.mem_map.1 hr with ⟨r0, _, hr0⟩
      by_cases h : c = r0.group_code
      · rw [if_pos h] at hr0
        rw [← hr0]
        unfold fixDynRow
        rw [hul, hco]
        by_cases hq : u ≤ 0
        · rw [if_pos (by simp [levelLow, hq])]
          exact ⟨rfl, rfl⟩
        · rw [if_neg (by simp [levelLow, hq])]
          exact ⟨rfl, rfl⟩
      · exfalso
        rw [if_neg h] at hr0
        apply h
        rw [← hrcode, ← hr0, fixDynRow_code]
        rfl

/-- Witness for C10 at a one-row catalog and an entry carrying only a
group code. -/
theorem claim_c10_witness :
    ∃ d out, restoreCore [("1", "A")] (.list [.obj [("group_code", .str "1")]]) =
        .ok (d, out) ∧
      (∃ r ∈ out, r.group_code = "1") ∧
      ∀ r ∈ out, r.group_code = "1" →
        r.use_level = .null ∧ r.consumers_of = .bool false :=
  (claim_c10_partial_entry [("1", "A")] [("group_code", .str "1")] "1" 0
    (by rfl) (by decide)).1 (by rfl)

/-! ### Round trip through the session codec -/

theorem buildSessionMap_entries (es : List SessionEntry) :
    buildSessionMap (es.map SessionEntry.toJVal) =
      .ok (es.map (fun e => (JVal.str e.group_code, e.toJVal))) := by
  induction es with
  | nil => rfl
  | cons e rest ih =>
      show buildSessionMap (e.toJVal :: rest.map SessionEntry.toJVal) = _
      unfold buildSessionMap
      rw [show pyGetItem e.toJVal "group_code" = .ok (.str e.group_code) from rfl,
          except_bind_ok]
      show (do
        let m ← buildSessionMap (rest.map SessionEntry.toJVal)
        Except.ok ((JVal.str e.group_code, e.toJVal) :: m)) = _
      rw [ih, except_bind_ok]
      rfl

theorem mapLookupStr_not_mem (es : List SessionEntry) (c : String)
    (h : ∀ e ∈ es, e.group_code ≠ c) :
    mapLookupStr (es.map (fun e => (JVal.str e.group_code, e.toJVal))) c = none := by
  induction es with
  | nil => rfl
  | cons e rest ih =>
      simp only [List.map_cons]
      unfold mapLookupStr
      rw [ih (fun x hx => h x (List.mem_cons_of_mem _ hx))]
      simp [pyEqAtom_str, h e (List.mem_cons_self _ _)]

theorem mapLookupStr_entries (es : List SessionEntry) (c : String)
    (hnd : (es.map (fun e => e.group_code)).Nodup) :
    mapLookupStr (es.map (fun e => (JVal.str e.group_code, e.toJVal))) c =
      (es.find? (fun e => e.group_code == c)).map SessionEntry.toJVal := by
  induction es with
  | nil => rfl
  | cons e rest ih =>
      simp only [List.map_cons] at hnd
      rcases List.nodup_cons.1 hnd with ⟨hne, hnd2⟩
      simp only [List.map_cons]
      unfold mapLookupStr
      by_cases h : e.group_code = c
      · have hrest : mapLookupStr (rest.map (fun e => (JVal.str e.group_code, e.toJVal))) c
            = none := by
          apply mapLookupStr_not_mem
          intro x hx hxc
          exact hne (by rw [← h] at hxc; rw [← hxc]; exact List.mem_map_of_mem _ hx)
        rw [hrest, List.find?_cons_of_pos _ (by simp [h])]
        simp [pyEqAtom_str, h]
      · rw [ih hnd2, List.find?_cons_of_neg _ (by simp [h])]
        cases hf : rest.find? (fun e => e.group_code == c) with
        | none => simp [hf, pyEqAtom_str, h]
        | some e2 => simp [hf]

theorem exposure_codes_nodup (T : List Row)
    (hnd : (T.map (fun r => r.group_code)).Nodup) :
    ((get_exposure_input T).map (fun e => e.group_code)).Nodup := by
  unfold get_exposure_input
  rw [List.map_map]
  show ((T.filter rowEligible).map (fun r => r.group_code)).Nodup
  exact List.Nodup.sublist ((List.filter_sublist T).map _) hnd

theorem exposure_code_mem {T : List Row} {e : SessionEntry}
    (he : e ∈ get_exposure_input T) : e.group_code ∈ T.map (fun r => r.group_code) := by
  unfold get_exposure_input at he
  rcases List.mem_map.1 he with ⟨r, hr, hre⟩
  rw [← hre]
  exact List.mem_map_of_mem _ (List.mem_of_mem_filter hr)

theorem find?_exposure (T : List Row) (hnd : (T.map (fun r => r.group_code)).Nodup)
    (b : Row) (hb : b ∈ T) :
    (get_exposure_input T).find? (fun e => e.group_code == b.group_code) =
      if rowEligible b then some ⟨b.group_code, b.use_level, b.consumers_of⟩
      else none := by
  induction T with
  | nil => cases hb
  | cons t0 T2 ih =>
      simp only [List.map_cons] at hnd
      rcases List.nodup_cons.1 hnd with ⟨hne, hnd2⟩
      have hexp : get_exposure_input (t0 :: T2) =
          (if rowEligible t0 then
            (⟨t0.group_code, t0.use_level, t0.consumers_of⟩ : SessionEntry) ::
              get_exposure_input T2
          else get_exposure_input T2) := by
        unfold get_exposure_input
        rw [List.filter_cons]
        by_cases h0 : rowEligible t0
        · rw [if_pos h0, if_pos h0]
          rfl
        · rw [if_neg h0, if_neg h0]
      by_cases hc : t0.group_code = b.group_code
      · have hbt : b = t0 := by
          rcases List.mem_cons.1 hb with rfl | hb2
          · rfl
          · exact absurd (hc ▸ List.mem_map_of_mem (fun r => r.group_code) hb2) hne
        subst hbt
        rw [hexp]
        by_cases h0 : rowEligible b
        · rw [if_pos h0, if_pos h0, List.find?_cons_of_pos _ (by simp)]
        · rw [if_neg h0, if_neg h0, List.find?_eq_none]
          intro e he
          simp only [beq_iff_eq]
          intro hec
          have := exposure_code_mem he
          rw [hec] at this
          exact hne this
      · have hb2 : b ∈ T2 := by
          rcases List.mem_cons.1 hb with rfl | hb2
          · exact absurd rfl hc
          · exact hb2
        rw [hexp]
        by_cases h0 : rowEligible t0
        · rw [if_pos h0, List.find?_cons_of_neg _ (by simp [hc])]
          exact ih hnd2 hb2
        · rw [if_neg h0]
          exact ih hnd2 hb2

theorem mergeRowT_found (m : List (JVal × JVal)) (r : DynRow) (e : SessionEntry)
    (hl : mapLookupStr m r.group_code = some e.toJVal) :
    mergeRowT m r = { r with use_level := levelJVal e.use_level,
                             consumers_of := .bool e.consumers_of } := by
  unfold mergeRowT
  rw [hl]
  rfl

theorem mergeRowT_not_found (m : List (JVal × JVal)) (r : DynRow)
    (hl : mapLookupStr m r.group_code = none) : mergeRowT m r = r := by
  unfold mergeRowT
  rw [hl]

theorem levelLow_of_eligible {b : Row} (h : rowEligible b = true) :
    levelLow (levelJVal b.use_level) = false := by
  unfold rowEligible at h
  cases hu : b.use_level with
  | none => rw [hu] at h; cases h
  | some q =>
      rw [hu] at h
      simp only [decide_eq_true_eq] at h
      unfold levelJVal levelLow
      simp [not_le.2 h]

/-- Two row lists with the same codes and names map equally when the two
functions agree on rows with equal codes and names. -/
theorem map_link {A B : List Row} (g f : Row → DynRow)
    (hp : A.map (fun r => (r.group_code, r.group_name)) =
          B.map (fun r => (r.group_code, r.group_name)))
    (hgf : ∀ a ∈ A, ∀ b ∈ B, a.group_code = b.group_code →
        a.group_name = b.group_name → g a = f b) :
    A.map g = B.map f := by
  induction A generalizing B with
  | nil =>
      cases B with
      | nil => rfl
      | cons b bs => cases hp
  | cons a as ih =>
      cases B with
      | nil => cases hp
      | cons b bs =>
          simp only [List.map_cons] at hp ⊢
          injection hp with h1 h2
          injection h1 with hcode hname
          rw [hgf a (List.mem_cons_self _ _) b (List.mem_cons_self _ _) hcode hname,
              ih h2 (fun x hx y hy => hgf x (List.mem_cons_of_mem _ hx) y
                (List.mem_cons_of_mem _ hy))]

/-- Session map contents for a compacted table. -/
def sessionPairs (T : List Row) : List (JVal × JVal) :=
  (get_exposure_input T).map (fun e => (JVal.str e.group_code, e.toJVal))

/-- C2: for a table `T` over the canonical code set (same codes and names
as the canonical table, codes unique), restoring from `compact(T)` and
re-validating returns each row of `T` unchanged where its use level is
non-null and positive, and the defaults (`null`, `false`) on every other
row, without ever entering the exception fallback. -/
theorem claim_c2_round_trip (catalog : List (String × String)) (T : List Row)
    (hproj : T.map (fun r => (r.group_code, r.group_name)) =
      (buildCategoryTable catalog).map (fun r => (r.group_code, r.group_name)))
    (hnd : (T.map (fun r => r.group_code)).Nodup) :
    ∃ d out, restoreCore catalog (exposureInputJVal T) = .ok (d, out) ∧
      restore_table_from_session catalog (exposureInputJVal T) = (d, out) ∧
      out = T.map (fun r =>
        if rowEligible r then Row.toDyn r
        else Row.toDyn ⟨r.group_code, r.group_name, none, false⟩) := by
  have hescodes := exposure_codes_nodup T hnd
  have hmap : buildSessionMap ((get_exposure_input T).map SessionEntry.toJVal) =
      .ok (sessionPairs T) := buildSessionMap_entries (get_exposure_input T)
  have hlook : ∀ (c : String),
      mapLookupStr (sessionPairs T) c =
        ((get_exposure_input T).find? (fun e => e.group_code == c)).map
          SessionEntry.toJVal :=
    fun c => mapLookupStr_entries _ c hescodes
  have hobj : ∀ (r : DynRow) (v : JVal),
      mapLookupStr (sessionPairs T) r.group_code = some v → ∃ fs, v = .obj fs := by
    intro r v hv
    rw [hlook] at hv
    cases hf : (get_exposure_input T).find? (fun e => e.group_code == r.group_code) with
    | none => rw [hf] at hv; cases hv
    | some e =>
        rw [hf] at hv
        cases hv
        exact ⟨_, rfl⟩
  have hlev : ∀ r ∈ ((buildCategoryTable catalog).map Row.toDyn).map
      (mergeRowT (sessionPairs T)), levelOk r.use_level = true := by
    intro r hr
    rcases List.mem_map.1 hr with ⟨rd, hrd, hrdm⟩
    subst hrdm
    cases hl : mapLookupStr (sessionPairs T) rd.group_code with
    | none =>
        rw [mergeRowT_not_found _ rd hl]
        rcases List.mem_map.1 hrd with ⟨r0, _, hr0d⟩
        rw [← hr0d]
        exact levelOk_levelJVal r0.use_level
    | some v =>
        rw [hlook] at hl
        cases hf : (get_exposure_input T).find? (fun e => e.group_code == rd.group_code) with
        | none => rw [hf] at hl; cases hl
        | some e =>
            rw [hf] at hl
            cases hl
            rw [mergeRowT_found _ rd e (by rw [hlook, hf]; rfl)]
            exact levelOk_levelJVal e.use_level
  have hout : (((buildCategoryTable catalog).map Row.toDyn).map
      (mergeRowT (sessionPairs T))).map fixDynRow =
      T.map (fun r =>
        if rowEligible r then Row.toDyn r
        else Row.toDyn ⟨r.group_code, r.group_name, none, false⟩) := by
    rw [List.map_map, List.map_map]
    apply map_link _ _ hproj.symm
    intro a ha b hb hcode hname
    obtain ⟨hul, hco⟩ := build_defaults catalog a ha
    obtain ⟨ac, an, au, aco⟩ := a
    obtain ⟨bc, bn, bu, bco⟩ := b
    simp only at hcode hname hul hco
    subst hcode hname hul hco
    have hfind := find?_exposure T hnd ⟨ac, an, bu, bco⟩ hb
    simp only at hfind
    show fixDynRow (mergeRowT (sessionPairs T) (Row.toDyn ⟨ac, an, none, false⟩)) = _
    by_cases he : rowEligible ⟨ac, an, bu, bco⟩
    · rw [if_pos he] at hfind
      have hlb : mapLookupStr (sessionPairs T)
          (Row.toDyn ⟨ac, an, none, false⟩).group_code =
          some (SessionEntry.toJVal ⟨ac, bu, bco⟩) := by
        rw [show (Row.toDyn ⟨ac, an, none, false⟩).group_code = ac from rfl, hlook, hfind]
        rfl
      rw [mergeRowT_found _ _ ⟨ac, bu, bco⟩ hlb]
      rw [if_pos he]
      show fixDynRow ⟨ac, an, levelJVal bu, .bool bco⟩ = Row.toDyn ⟨ac, an, bu, bco⟩
      unfold fixDynRow
      rw [show (⟨ac, an, levelJVal bu, JVal.bool bco⟩ : DynRow).use_level =
          levelJVal bu from rfl]
      rw [show levelJVal bu = levelJVal (Row.mk ac an bu bco).use_level from rfl,
          levelLow_of_eligible he]
      rw [if_neg (by simp)]
      rfl
    · rw [if_neg he] at hfind
      have hlb : mapLookupStr (sessionPairs T)
          (Row.toDyn ⟨ac, an, none, false⟩).group_code = none := by
        rw [show (Row.toDyn ⟨ac, an, none, false⟩).group_code = ac from rfl, hlook, hfind]
        rfl
      rw [mergeRowT_not_found _ _ hlb]
      rw [if_neg he]
      show fixDynRow ⟨ac, an, JVal.null, .bool false⟩ =
        Row.toDyn ⟨ac, an, none, false⟩
      unfold fixDynRow
      rw [if_pos (by rfl)]
      rfl
  have hres2 : restoreCore catalog (exposureInputJVal T) =
      .ok (!((((buildCategoryTable catalog).map Row.toDyn).map
              (mergeRowT (sessionPairs T))).any (fun r => levelPos r.use_level)),
           T.map (fun r =>
             if rowEligible r then Row.toDyn r
             else Row.toDyn ⟨r.group_code, r.group_name, none, false⟩)) := by
    rw [show restoreCore catalog (exposureInputJVal T) =
        restoreCore catalog (.list ((get_exposure_input T).map SessionEntry.toJVal))
        from rfl]
    rw [restoreCore_of_map hmap hobj hlev, hout]
  refine ⟨_, _, hres2, ?_, rfl⟩
  unfold restore_table_from_session
  rw [hres2]

/-- Witness for C2 at a concrete two-row table with one eligible row. -/
theorem claim_c2_witness :
    ∃ d out, restoreCore [("1", "A"), ("2", "B")]
        (exposureInputJVal [⟨"1", "A", some 5, true⟩, ⟨"2", "B", none, true⟩]) =
        .ok (d, out) ∧
      restore_table_from_session [("1", "A"), ("2", "B")]
        (exposureInputJVal [⟨"1", "A", some 5, true⟩, ⟨"2", "B", none, true⟩]) =
        (d, out) ∧
      out = [(⟨"1", "A", some 5, true⟩ : Row), ⟨"2", "B", none, true⟩].map (fun r =>
        if rowEligible r then Row.toDyn r
        else Row.toDyn ⟨r.group_code, r.group_name, none, false⟩) :=
  claim_c2_round_trip [("1", "A"), ("2", "B")]
    [⟨"1", "A", some 5, true⟩, ⟨"2", "B", none, true⟩] (by decide) (by decide)
